import Mathlib

/-!
Shallow embedding of `src/Rust_Project.rs`, a command-line todo-list manager.

Modelling conventions:
* Rust `String` / `&str` values are `List Char` (abbreviated `Str`), so that the
  splitting, escaping and trimming loops of the source translate to structural
  recursion.
* Rust `usize` is `Nat`.  The one divergence is `str::parse::<usize>`, which in
  Rust fails on overflow past `usize::MAX`; here parsing is unbounded.  No claim
  depends on overflow.
* `Rust` errors are the literal `String` messages the source builds with
  `format!`; the spec's names `ValidationError`, `NotFoundError(id)` and
  `ParseError(line)` denote the messages `errEmptyDesc`, `errNotFound id` and
  `errInvalidId line` below.
* Methods taking `&mut self` and returning `Result<T, String>` become functions
  `TodoList → ... → Except Str T × TodoList`: the second component is the store
  after the call (unchanged when the Rust method returns without mutating).
* The persisted file is its list of lines: `save_tasks` returns the lines
  written (one `writeln!` each), and `load_tasks` takes `Option (List Str)`,
  where `none` models a path for which `Path::new(filename).exists()` is false.
  I/O failures (`File::create` / `File::open` / `line?` errors) are outside the
  model.
* Rust `str::trim` strips Unicode `White_Space` characters from both ends; the
  embedding strips `Char.isWhitespace` (space, tab, CR, LF), the subset every
  claim exercises.
-/

namespace Todo

abbrev Str := List Char

/-- Rust `struct Task { id: usize, description: String, completed: bool }`. -/
structure Task where
  id : Nat
  description : Str
  completed : Bool
  deriving DecidableEq, Repr

/-- Rust `struct TodoList { tasks: Vec<Task>, next_id: usize }`. -/
structure TodoList where
  tasks : List Task
  next_id : Nat
  deriving DecidableEq, Repr

/-- Rust `TodoList::new()`: empty task vector, `next_id = 1`. -/
def TodoList.new : TodoList :=
  { tasks := [], next_id := 1 }

/-- Whitespace test used by `str::trim` (here: the ASCII subset). -/
def isWS (c : Char) : Bool := c.isWhitespace

/-- Leading-whitespace removal, one half of `str::trim`. -/
def trimFront (s : Str) : Str := s.dropWhile isWS

/-- Rust `description.trim()`: drop whitespace from both ends. -/
def trim (s : Str) : Str := ((trimFront s).reverse.dropWhile isWS).reverse

/-- Decimal rendering of a `usize`, as `format!("{}", n)` produces it. -/
def natToStr (n : Nat) : Str := (Nat.repr n).data

/-- The message `"Task description cannot be empty"` — the spec's `ValidationError`. -/
def errEmptyDesc : Str := "Task description cannot be empty".data

/-- The message `format!("Task with ID {} not found", id)` — the spec's `NotFoundError(id)`. -/
def errNotFound (id : Nat) : Str :=
  "Task with ID ".data ++ natToStr id ++ " not found".data

/-- The message `format!("Invalid ID in line {}", line)` — the spec's `ParseError(line)`. -/
def errInvalidId (line : Nat) : Str :=
  "Invalid ID in line ".data ++ natToStr line

/-- Rust `TodoList::add_task`: trim, reject empty, otherwise push a fresh task and
bump `next_id`, returning the assigned id. -/
def add_task (l : TodoList) (description : Str) : Except Str Nat × TodoList :=
  let trimmed_desc := trim description
  if trimmed_desc = [] then
    (.error errEmptyDesc, l)
  else
    let task : Task := { id := l.next_id, description := trimmed_desc, completed := false }
    (.ok l.next_id, { tasks := l.tasks ++ [task], next_id := l.next_id + 1 })

/-- Setting `task.completed = true`, the closure body in `complete_task`. -/
def markDone (t : Task) : Task := { t with completed := true }

/-- Rust `self.tasks.iter_mut().find(|task| task.id == id)` followed by the mutation:
`none` when no task matches, otherwise the vector with the first match marked
completed. -/
def completeAux : List Task → Nat → Option (List Task)
  | [], _ => none
  | t :: ts, id =>
    if t.id = id then some (markDone t :: ts)
    else (completeAux ts id).map (t :: ·)

/-- Rust `TodoList::complete_task`. -/
def complete_task (l : TodoList) (id : Nat) : Except Str Unit × TodoList :=
  match completeAux l.tasks id with
  | some ts => (.ok (), { l with tasks := ts })
  | none => (.error (errNotFound id), l)

/-- Rust `self.tasks.iter().position(|task| task.id == id)` followed by
`self.tasks.remove(index)`: `none` when no task matches, otherwise the vector
with the first match removed. -/
def removeAux : List Task → Nat → Option (List Task)
  | [], _ => none
  | t :: ts, id =>
    if t.id = id then some ts
    else (removeAux ts id).map (t :: ·)

/-- Rust `TodoList::remove_task`. -/
def remove_task (l : TodoList) (id : Nat) : Except Str Unit × TodoList :=
  match removeAux l.tasks id with
  | some ts => (.ok (), { l with tasks := ts })
  | none => (.error (errNotFound id), l)

/-- The status word written on save: `"completed"` or `"pending"`. -/
def statusWord (completed : Bool) : Str :=
  if completed then "completed".data else "pending".data

/-- Rust `task.description.replace(',', "\\,")`: each comma becomes backslash-comma. -/
def escape : Str → Str
  | [] => []
  | c :: cs => if c = ',' then '\\' :: ',' :: escape cs else c :: escape cs

/-- Rust `parts[2].replace("\\,", ",")`: each backslash-comma (scanning left to
right, non-overlapping) becomes a comma. -/
def unescape : Str → Str
  | '\\' :: ',' :: cs => ',' :: unescape cs
  | c :: cs => c :: unescape cs
  | [] => []

/-- The line `writeln!(file, "{},{},{}", task.id, status, escaped_desc)` emits
(without the terminating newline). -/
def saveLine (t : Task) : Str :=
  natToStr t.id ++ [','] ++ statusWord t.completed ++ [','] ++ escape t.description

/-- Rust `TodoList::save_tasks`: the list of lines written to the file. -/
def save_tasks (l : TodoList) : List Str := l.tasks.map saveLine

/-- Prefix a character onto the first field of a split result. -/
def consHead (c : Char) : List Str → List Str
  | [] => [[c]]
  | f :: fs => (c :: f) :: fs

/-- Rust `line.split(',')`: fields between raw commas; `""` splits to `[""]`. -/
def splitComma : Str → List Str
  | [] => [[]]
  | c :: cs => if c = ',' then [] :: splitComma cs else consHead c (splitComma cs)

/-- Numeric value of an ASCII digit. -/
def digitVal (c : Char) : Nat := c.toNat - '0'.toNat

/-- The optional leading `+` sign `usize::from_str` accepts. -/
def stripPlus : Str → Str
  | '+' :: r => r
  | s => s

/-- Rust `parts[0].parse::<usize>()`: optional `+`, then one or more ASCII digits
and nothing else (unbounded, see the module comment on overflow). -/
def parseNat (s : Str) : Option Nat :=
  let ds := stripPlus s
  if ds ≠ [] ∧ ds.all Char.isDigit then
    some (ds.foldl (fun a c => a * 10 + digitVal c) 0)
  else none

/-- The exact status comparison `parts[1] == "completed"`. -/
def strCompleted : Str := "completed".data

/-- The `for (line_num, line) in reader.lines().enumerate()` loop of
`load_tasks`: lines with exactly three raw comma-split parts are parsed (a
non-numeric id aborts with `errInvalidId (line_num + 1)`); all other lines are
skipped.  `line_num` starts at 0 as `enumerate` does. -/
def loadLines : List Str → Nat → Except Str (List Task)
  | [], _ => .ok []
  | line :: rest, line_num =>
    match splitComma line with
    | [f0, f1, f2] =>
      match parseNat f0 with
      | none => .error (errInvalidId (line_num + 1))
      | some id =>
        match loadLines rest (line_num + 1) with
        | .error e => .error e
        | .ok ts =>
          .ok ({ id := id, description := unescape f2, completed := f1 == strCompleted } :: ts)
    | _ => loadLines rest (line_num + 1)

/-- Rust `TodoList::load_tasks`: `none` is a nonexistent path (empty store back);
otherwise the loop above runs and `next_id` becomes `max_id + 1` when the
loaded tasks have a maximum id, else stays at `TodoList::new`'s 1. -/
def load_tasks (file : Option (List Str)) : Except Str TodoList :=
  match file with
  | none => .ok TodoList.new
  | some lines =>
    match loadLines lines 0 with
    | .error e => .error e
    | .ok ts =>
      .ok { tasks := ts,
            next_id :=
              match (ts.map (·.id)).max? with
              | some max_id => max_id + 1
              | none => 1 }

/-!  Spec-side definitions, used only to state properties of the embedding. -/

/-- A line on which the load loop aborts: it splits into exactly three raw
comma-delimited parts but its first part is not numeric. -/
def isBadLine (line : Str) : Bool :=
  match splitComma line with
  | [f0, _, _] => (parseNat f0).isNone
  | _ => false

/-- Index (0-based) of the first line the load loop aborts on, if any. -/
def firstBad : List Str → Option Nat
  | [] => none
  | line :: rest => if isBadLine line then some 0 else (firstBad rest).map (· + 1)

/-- The task a single line contributes on a successful load: lines with exactly
three raw comma-split fields and a numeric first field yield a task whose
description is the unescaped third field and whose completed flag is true
exactly when the status field equals `"completed"`; every other line yields
nothing. -/
def lineTask (line : Str) : Option Task :=
  match splitComma line with
  | [f0, f1, f2] =>
    (parseNat f0).map fun id =>
      { id := id, description := unescape f2, completed := f1 == strCompleted }
  | _ => none

/-- Comma splitting as the spec describes it, with escaped commas accounted
for: a `\,` pair stays inside the current field and only bare commas separate
fields.  This definition follows the spec's words, not the source (the source
splits on every comma); it exists to compare the two. -/
def splitCommaEsc : Str → List Str
  | [] => [[]]
  | '\\' :: ',' :: cs => consHead '\\' (consHead ',' (splitCommaEsc cs))
  | ',' :: cs => [] :: splitCommaEsc cs
  | c :: cs => consHead c (splitCommaEsc cs)

/-- The store invariants of the spec: unique task ids, `next_id` strictly above
every present id (so 1 on an empty store), and descriptions non-empty after
trimming. -/
def Inv (l : TodoList) : Prop :=
  (l.tasks.map (·.id)).Nodup ∧
  (∀ t ∈ l.tasks, t.id < l.next_id) ∧
  (∀ t ∈ l.tasks, trim t.description ≠ [])

/-- A store whose single task description contains literal commas, the
round-trip example of the spec. -/
def commaStore : TodoList :=
  { tasks := [{ id := 1, description := "milk, eggs, bread".data, completed := false }],
    next_id := 2 }

/-- The on-disk line `1,pending,a\, b`: an id, a status, and a description
field containing an escaped comma. -/
def escLine : Str := "1,pending,a\\, b".data

/-!  Helper lemmas about trimming. -/

theorem head?_dropWhile_not {α : Type} (p : α → Bool) (l : List α) (c : α)
    (h : (l.dropWhile p).head? = some c) : p c = false := by
  induction l with
  | nil => simp [List.dropWhile] at h
  | cons a as ih =>
    rw [List.dropWhile] at h
    cases hp : p a with
    | true => rw [hp] at h; exact ih h
    | false => rw [hp] at h; simp only [List.head?_cons, Option.some.injEq] at h; rwa [← h]

theorem getLast?_dropWhile {α : Type} (p : α → Bool) (l : List α)
    (h : l.dropWhile p ≠ []) : (l.dropWhile p).getLast? = l.getLast? := by
  induction l with
  | nil => simp [List.dropWhile] at h
  | cons a as ih =>
    rw [List.dropWhile]
    cases hp : p a with
    | true =>
      rw [List.dropWhile, hp] at h
      have has : as ≠ [] := by
        intro he
        rw [he] at h
        exact h rfl
      rw [ih h]
      cases as with
      | nil => exact absurd rfl has
      | cons b bs => rw [List.getLast?_cons_cons]
    | false => rfl

theorem dropWhile_eq_self_of_head {α : Type} (p : α → Bool) (l : List α)
    (h : ∀ c, l.head? = some c → p c = false) : l.dropWhile p = l := by
  cases l with
  | nil => rfl
  | cons a as => rw [List.dropWhile, h a rfl]

/-- Rust `str::trim` is idempotent: a trimmed string trims to itself. -/
theorem trim_trim (s : Str) : trim (trim s) = trim s := by
  have hfront : trimFront (trim s) = trim s := by
    apply dropWhile_eq_self_of_head
    intro c hc
    rw [trim, List.head?_reverse] at hc
    have hne : (trimFront s).reverse.dropWhile isWS ≠ [] := by
      intro he
      rw [he] at hc
      simp at hc
    rw [getLast?_dropWhile _ _ hne, List.getLast?_reverse] at hc
    exact head?_dropWhile_not isWS s c hc
  rw [trim, hfront, trim, List.reverse_reverse]
  rw [dropWhile_eq_self_of_head isWS _ (fun c hc => head?_dropWhile_not isWS _ c hc)]

/-!  Helper lemmas about `completeAux` and `removeAux`. -/

theorem completeAux_eq_none_iff (ts : List Task) (id : Nat) :
    completeAux ts id = none ↔ ∀ t ∈ ts, t.id ≠ id := by
  induction ts with
  | nil => simp [completeAux]
  | cons t rest ih =>
    rw [completeAux]
    by_cases hid : t.id = id
    · simp [hid]
    · simp [hid, Option.map_eq_none', ih]

theorem completeAux_eq_some (ts : List Task) (id : Nat) (ts' : List Task)
    (h : completeAux ts id = some ts') :
    ∃ k, ∃ hk : k < ts.length, (ts.get ⟨k, hk⟩).id = id ∧
      ts' = ts.set k (markDone (ts.get ⟨k, hk⟩)) := by
  induction ts generalizing ts' with
  | nil => simp [completeAux] at h
  | cons t rest ih =>
    rw [completeAux] at h
    by_cases hid : t.id = id
    · rw [if_pos hid] at h
      refine ⟨0, by simp, hid, ?_⟩
      simp only [Option.some.injEq] at h
      simp [← h]
    · rw [if_neg hid] at h
      obtain ⟨u, hu, rfl⟩ := Option.map_eq_some'.mp h
      obtain ⟨k, hk, hkid, hset⟩ := ih u hu
      exact ⟨k + 1, by simpa using hk, by simpa using hkid, by simp [hset]⟩

theorem completeAux_pairs (ts ts' : List Task) (id : Nat)
    (h : completeAux ts id = some ts') :
    ts'.map (fun t => (t.id, t.description)) = ts.map (fun t => (t.id, t.description)) := by
  induction ts generalizing ts' with
  | nil => simp [completeAux] at h
  | cons t rest ih =>
    rw [completeAux] at h
    by_cases hid : t.id = id
    · rw [if_pos hid] at h
      simp only [Option.some.injEq] at h
      simp [← h, markDone]
    · rw [if_neg hid] at h
      obtain ⟨u, hu, rfl⟩ := Option.map_eq_some'.mp h
      simp [ih u hu]

theorem completeAux_idem (ts ts' : List Task) (id : Nat)
    (h : completeAux ts id = some ts') : completeAux ts' id = some ts' := by
  induction ts generalizing ts' with
  | nil => simp [completeAux] at h
  | cons t rest ih =>
    rw [completeAux] at h
    by_cases hid : t.id = id
    · rw [if_pos hid] at h
      simp only [Option.some.injEq] at h
      have : (markDone t).id = id := hid
      rw [← h, completeAux, if_pos this]
      simp [markDone]
    · rw [if_neg hid] at h
      obtain ⟨u, hu, rfl⟩ := Option.map_eq_some'.mp h
      rw [completeAux, if_neg hid, ih u hu]
      rfl

theorem removeAux_eq_none_iff (ts : List Task) (id : Nat) :
    removeAux ts id = none ↔ ∀ t ∈ ts, t.id ≠ id := by
  induction ts with
  | nil => simp [removeAux]
  | cons t rest ih =>
    rw [removeAux]
    by_cases hid : t.id = id
    · simp [hid]
    · simp [hid, Option.map_eq_none', ih]

theorem removeAux_eq_some (ts : List Task) (id : Nat) (ts' : List Task)
    (h : removeAux ts id = some ts') :
    ∃ k, ∃ hk : k < ts.length, (ts.get ⟨k, hk⟩).id = id ∧ ts' = ts.eraseIdx k := by
  induction ts generalizing ts' with
  | nil => simp [removeAux] at h
  | cons t rest ih =>
    rw [removeAux] at h
    by_cases hid : t.id = id
    · rw [if_pos hid] at h
      simp only [Option.some.injEq] at h
      exact ⟨0, by simp, hid, by simp [← h]⟩
    · rw [if_neg hid] at h
      obtain ⟨u, hu, rfl⟩ := Option.map_eq_some'.mp h
      obtain ⟨k, hk, hkid, hrest⟩ := ih u hu
      exact ⟨k + 1, by simpa using hk, by simpa using hkid, by simp [hrest]⟩

/-!  Helper lemmas about the load loop. -/

theorem firstBad_eq_none_iff (lines : List Str) :
    firstBad lines = none ↔ ∀ line ∈ lines, isBadLine line = false := by
  induction lines with
  | nil => simp [firstBad]
  | cons line rest ih =>
    rw [firstBad]
    by_cases hb : isBadLine line
    · simp [hb]
    · simp only [if_neg hb, Option.map_eq_none', ih, List.mem_cons]
      constructor
      · intro h x hx
        cases hx with
        | inl he => rw [he]; exact Bool.eq_false_iff.mpr hb
        | inr hm => exact h x hm
      · intro h x hx
        exact h x (Or.inr hx)

theorem firstBad_eq_some (lines : List Str) (k : Nat) (h : firstBad lines = some k) :
    ∃ hk : k < lines.length, isBadLine (lines.get ⟨k, hk⟩) = true ∧
      ∀ j, j < k → ∀ hj : j < lines.length, isBadLine (lines.get ⟨j, hj⟩) = false := by
  induction lines generalizing k with
  | nil => simp [firstBad] at h
  | cons line rest ih =>
    rw [firstBad] at h
    by_cases hb : isBadLine line
    · rw [if_pos hb] at h
      simp only [Option.some.injEq] at h
      subst h
      exact ⟨by simp, hb, fun j hj => absurd hj (Nat.not_lt_zero j)⟩
    · rw [if_neg hb] at h
      obtain ⟨k', hk', rfl⟩ := Option.map_eq_some'.mp h
      obtain ⟨hlt, hbad, hmin⟩ := ih k' hk'
      refine ⟨by simpa using hlt, by simpa using hbad, ?_⟩
      intro j hj hjlen
      cases j with
      | zero => simpa using Bool.eq_false_iff.mpr hb
      | succ j' =>
        have := hmin j' (Nat.lt_of_succ_lt_succ hj) (by simpa using hjlen)
        simpa using this

theorem loadLines_eq_error (lines : List Str) (n k : Nat) (h : firstBad lines = some k) :
    loadLines lines n = .error (errInvalidId (n + k + 1)) := by
  induction lines generalizing n k with
  | nil => simp [firstBad] at h
  | cons line rest ih =>
    rw [firstBad] at h
    rw [loadLines]
    by_cases hb : isBadLine line
    · rw [if_pos hb] at h
      simp only [Option.some.injEq] at h
      subst h
      rw [isBadLine] at hb
      match hs : splitComma line with
      | [f0, f1, f2] =>
        rw [hs] at hb
        simp only [Option.isNone_iff_eq_none] at hb
        dsimp only
        rw [hb]
      | [] => rw [hs] at hb; simp at hb
      | [f0] => rw [hs] at hb; simp at hb
      | [f0, f1] => rw [hs] at hb; simp at hb
      | f0 :: f1 :: f2 :: f3 :: fs => rw [hs] at hb; simp at hb
    · rw [if_neg hb] at h
      obtain ⟨k', hk', rfl⟩ := Option.map_eq_some'.mp h
      have hrec := ih (n + 1) k' hk'
      have harith : n + 1 + k' + 1 = n + (k' + 1) + 1 := by omega
      rw [harith] at hrec
      rw [isBadLine] at hb
      match hs : splitComma line with
      | [f0, f1, f2] =>
        rw [hs] at hb
        simp only [Option.isNone_iff_eq_none] at hb
        dsimp only
        match hp : parseNat f0 with
        | none => exact absurd hp hb
        | some id => dsimp only; rw [hrec]
      | [] => dsimp only; exact hrec
      | [f0] => dsimp only; exact hrec
      | [f0, f1] => dsimp only; exact hrec
      | f0 :: f1 :: f2 :: f3 :: fs => dsimp only; exact hrec

theorem loadLines_eq_ok (lines : List Str) (n : Nat) (h : firstBad lines = none) :
    loadLines lines n = .ok (lines.filterMap lineTask) := by
  induction lines generalizing n with
  | nil => simp [loadLines]
  | cons line rest ih =>
    rw [firstBad] at h
    by_cases hb : isBadLine line
    · simp [hb] at h
    · rw [if_neg hb, Option.map_eq_none'] at h
      have hrec := ih (n + 1) h
      rw [loadLines, List.filterMap_cons, lineTask]
      rw [isBadLine] at hb
      match hs : splitComma line with
      | [f0, f1, f2] =>
        rw [hs] at hb
        simp only [Option.isNone_iff_eq_none] at hb
        dsimp only
        match hp : parseNat f0 with
        | none => exact absurd hp hb
        | some id => dsimp only; rw [hrec]; rfl
      | [] => dsimp only; exact hrec
      | [f0] => dsimp only; exact hrec
      | [f0, f1] => dsimp only; exact hrec
      | f0 :: f1 :: f2 :: f3 :: fs => dsimp only; exact hrec

theorem completeAux_ids (ts ts' : List Task) (id : Nat)
    (h : completeAux ts id = some ts') : ts'.map (·.id) = ts.map (·.id) := by
  induction ts generalizing ts' with
  | nil => simp [completeAux] at h
  | cons t rest ih =>
    rw [completeAux] at h
    by_cases hid : t.id = id
    · rw [if_pos hid] at h
      simp only [Option.some.injEq] at h
      simp [← h, markDone]
    · rw [if_neg hid] at h
      obtain ⟨u, hu, rfl⟩ := Option.map_eq_some'.mp h
      simp [ih u hu]

theorem completeAux_desc (ts ts' : List Task) (id : Nat)
    (h : completeAux ts id = some ts') :
    ∀ t' ∈ ts', ∃ t ∈ ts, t'.description = t.description := by
  induction ts generalizing ts' with
  | nil => simp [completeAux] at h
  | cons t rest ih =>
    rw [completeAux] at h
    by_cases hid : t.id = id
    · rw [if_pos hid] at h
      simp only [Option.some.injEq] at h
      intro t' ht'
      rw [← h] at ht'
      rcases List.mem_cons.mp ht' with he | hm
      · exact ⟨t, List.mem_cons_self t rest, by rw [he]; rfl⟩
      · exact ⟨t', List.mem_cons_of_mem t hm, rfl⟩
    · rw [if_neg hid] at h
      obtain ⟨u, hu, rfl⟩ := Option.map_eq_some'.mp h
      intro t' ht'
      rcases List.mem_cons.mp ht' with he | hm
      · exact ⟨t, List.mem_cons_self t rest, by rw [he]⟩
      · obtain ⟨w, hw, he⟩ := ih u hu t' hm
        exact ⟨w, List.mem_cons_of_mem t hw, he⟩

/-- Characterization of a successful load: no line aborts the loop, and the
resulting store is the per-line filter with the recomputed `next_id`. -/
theorem load_tasks_ok_iff (lines : List Str) (L : TodoList) :
    load_tasks (some lines) = .ok L ↔
      firstBad lines = none ∧
      L = { tasks := lines.filterMap lineTask,
            next_id :=
              match ((lines.filterMap lineTask).map (·.id)).max? with
              | some m => m + 1
              | none => 1 } := by
  constructor
  · intro h
    match hfb : firstBad lines with
    | some k =>
      rw [load_tasks, loadLines_eq_error lines 0 k hfb] at h
      exact absurd h (by simp)
    | none =>
      rw [load_tasks, loadLines_eq_ok lines 0 hfb] at h
      dsimp only at h
      simp only [Except.ok.injEq] at h
      exact ⟨rfl, h.symm⟩
  · rintro ⟨hfb, rfl⟩
    rw [load_tasks, loadLines_eq_ok lines 0 hfb]

/-!  The claims. -/

/-- C1.  The save/load round trip does NOT reproduce a store whose description
contains a literal comma: saving `commaStore` escapes the commas
(`milk\, eggs\, bread`), but the load loop splits that line on every raw comma
into five parts and silently drops it, so the reloaded store is empty and the
`(id, description, completed)` triple `(1, "milk, eggs, bread", false)` is
lost.  This evaluates the code at the failing input of the claim. -/
theorem roundtrip_comma_loss :
    save_tasks commaStore = ["1,pending,milk\\, eggs\\, bread".data] ∧
    load_tasks (some (save_tasks commaStore)) = .ok { tasks := [], next_id := 1 } ∧
    commaStore.tasks.map (fun t => (t.id, t.description, t.completed)) =
      [(1, "milk, eggs, bread".data, false)] :=
  ⟨rfl, rfl, rfl⟩

/-- C5.  Adding a description that trims to empty (e.g. whitespace only) fails
with the `ValidationError` message and leaves the store completely unchanged. -/
theorem add_blank_description_fails (l : TodoList) (d : Str) (h : trim d = []) :
    add_task l d = (.error errEmptyDesc, l) := by
  simp [add_task, h]

theorem add_blank_description_fails_witness :
    add_task TodoList.new "  ".data = (.error errEmptyDesc, TodoList.new) :=
  add_blank_description_fails TodoList.new "  ".data (by decide)

/-- C6.  Adding a description that is non-empty after trimming appends at the
end a task carrying the current `next_id`, the trimmed description and
`completed = false`, increments `next_id` and returns the assigned id; adding
"Buy milk" then "Walk dog" to a fresh store assigns ids 1 and 2 in that
order. -/
theorem add_assigns_next_id :
    (∀ l d, trim d ≠ [] →
      add_task l d =
        (.ok l.next_id,
         { tasks := l.tasks ++
             [{ id := l.next_id, description := trim d, completed := false }],
           next_id := l.next_id + 1 })) ∧
    add_task TodoList.new "Buy milk".data =
      (.ok 1, { tasks := [{ id := 1, description := "Buy milk".data, completed := false }],
                next_id := 2 }) ∧
    add_task { tasks := [{ id := 1, description := "Buy milk".data, completed := false }],
               next_id := 2 } "Walk dog".data =
      (.ok 2, { tasks := [{ id := 1, description := "Buy milk".data, completed := false },
                          { id := 2, description := "Walk dog".data, completed := false }],
                next_id := 3 }) := by
  refine ⟨?_, rfl, rfl⟩
  intro l d h
  simp [add_task, h]

theorem add_assigns_next_id_witness :
    add_task TodoList.new "Call mom".data =
      (.ok 1, { tasks := [{ id := 1, description := "Call mom".data, completed := false }],
                next_id := 2 }) :=
  (add_assigns_next_id.1 TodoList.new "Call mom".data (by decide)).trans rfl

/-- C7.  `complete_task`: when no task carries the id, it fails with the
`NotFoundError(id)` message and the store is unchanged; when some task does, it
succeeds and the store is the old one with the first task carrying the id
marked completed (every other task and `next_id` untouched, as `List.set`
shows). -/
theorem complete_marks_first_match (l : TodoList) (id : Nat) :
    ((∀ t ∈ l.tasks, t.id ≠ id) → complete_task l id = (.error (errNotFound id), l)) ∧
    (∀ t ∈ l.tasks, t.id = id →
      ∃ k, ∃ hk : k < l.tasks.length,
        (l.tasks.get ⟨k, hk⟩).id = id ∧
        complete_task l id =
          (.ok (), { l with tasks := l.tasks.set k (markDone (l.tasks.get ⟨k, hk⟩)) })) := by
  constructor
  · intro hno
    rw [complete_task, (completeAux_eq_none_iff l.tasks id).mpr hno]
  · intro t ht hid
    match hc : completeAux l.tasks id with
    | none => exact absurd hid ((completeAux_eq_none_iff l.tasks id).mp hc t ht)
    | some ts' =>
      obtain ⟨k, hk, hkid, hset⟩ := completeAux_eq_some l.tasks id ts' hc
      exact ⟨k, hk, hkid, by rw [complete_task, hc, hset]⟩

theorem complete_marks_first_match_witness :
    complete_task TodoList.new 99 = (.error (errNotFound 99), TodoList.new) :=
  (complete_marks_first_match TodoList.new 99).1 (by simp [TodoList.new])

/-- C8.  `remove_task`: when no task carries the id, it fails with the
`NotFoundError(id)` message and the store is unchanged; when some task does, it
succeeds and the store is the old one with exactly the first task carrying the
id removed (`List.eraseIdx`), every other task and `next_id` untouched.
Removing id 1 from the two-task store leaves only task 2, and the next add
assigns id 3. -/
theorem remove_deletes_only_match :
    (∀ l id, (∀ t ∈ l.tasks, t.id ≠ id) →
      remove_task l id = (.error (errNotFound id), l)) ∧
    (∀ l id, ∀ t ∈ l.tasks, t.id = id →
      ∃ k, ∃ hk : k < l.tasks.length,
        (l.tasks.get ⟨k, hk⟩).id = id ∧
        remove_task l id = (.ok (), { l with tasks := l.tasks.eraseIdx k })) ∧
    remove_task { tasks := [{ id := 1, description := "Buy milk".data, completed := false },
                            { id := 2, description := "Walk dog".data, completed := false }],
                  next_id := 3 } 1 =
      (.ok (), { tasks := [{ id := 2, description := "Walk dog".data, completed := false }],
                 next_id := 3 }) ∧
    add_task { tasks := [{ id := 2, description := "Walk dog".data, completed := false }],
               next_id := 3 } "Call mom".data =
      (.ok 3, { tasks := [{ id := 2, description := "Walk dog".data, completed := false },
                          { id := 3, description := "Call mom".data, completed := false }],
                next_id := 4 }) := by
  refine ⟨?_, ?_, rfl, rfl⟩
  · intro l id hno
    rw [remove_task, (removeAux_eq_none_iff l.tasks id).mpr hno]
  · intro l id t ht hid
    match hc : removeAux l.tasks id with
    | none => exact absurd hid ((removeAux_eq_none_iff l.tasks id).mp hc t ht)
    | some ts' =>
      obtain ⟨k, hk, hkid, hrest⟩ := removeAux_eq_some l.tasks id ts' hc
      exact ⟨k, hk, hkid, by rw [remove_task, hc, hrest]⟩

theorem remove_deletes_only_match_witness :
    remove_task TodoList.new 1 = (.error (errNotFound 1), TodoList.new) :=
  remove_deletes_only_match.1 TodoList.new 1 (by simp [TodoList.new])

/-- C10.  Completing an id that is present succeeds, and completing it a second
time succeeds again and leaves the store exactly as after the first call:
`complete_task` is idempotent on present ids. -/
theorem complete_idempotent (l : TodoList) (id : Nat) (t : Task)
    (ht : t ∈ l.tasks) (hid : t.id = id) :
    (complete_task l id).1 = .ok () ∧
    complete_task (complete_task l id).2 id = (.ok (), (complete_task l id).2) := by
  match hc : completeAux l.tasks id with
  | none => exact absurd hid ((completeAux_eq_none_iff l.tasks id).mp hc t ht)
  | some ts' =>
    have hidem := completeAux_idem l.tasks ts' id hc
    rw [complete_task, hc]
    refine ⟨rfl, ?_⟩
    dsimp only
    rw [complete_task]
    dsimp only
    rw [hidem]

theorem complete_idempotent_witness :
    complete_task
        (complete_task { tasks := [{ id := 1, description := "a".data, completed := false }],
                         next_id := 2 } 1).2 1 =
      (.ok (),
       (complete_task { tasks := [{ id := 1, description := "a".data, completed := false }],
                        next_id := 2 } 1).2) :=
  (complete_idempotent
      { tasks := [{ id := 1, description := "a".data, completed := false }], next_id := 2 } 1
      { id := 1, description := "a".data, completed := false } (by simp) rfl).2

/-- C2 fails as stated: `load_tasks` performs no validation, so loading a file
whose lines carry a duplicate id and a whitespace-only description succeeds
and produces a store violating both the unique-id and the non-empty-description
invariants. -/
theorem load_violates_invariants :
    load_tasks (some ["1,pending,a".data, "1,pending,  ".data]) =
      .ok { tasks := [{ id := 1, description := "a".data, completed := false },
                      { id := 1, description := "  ".data, completed := false }],
            next_id := 2 } ∧
    ¬ Inv { tasks := [{ id := 1, description := "a".data, completed := false },
                      { id := 1, description := "  ".data, completed := false }],
            next_id := 2 } := by
  refine ⟨rfl, fun h => absurd h.1 (by decide)⟩

/-- C2 (amended).  `new` satisfies the store invariants and `add_task`,
`complete_task` and `remove_task` preserve them; `load_tasks` guarantees only
the `next_id` invariant (`next_id` strictly above every loaded id, 1 when
nothing is loaded) — a successful load need not give unique ids or trimmed
non-empty descriptions when the file itself contains such lines. -/
theorem operations_preserve_invariants :
    Inv TodoList.new ∧
    (∀ l d, Inv l → Inv (add_task l d).2) ∧
    (∀ l id, Inv l → Inv (complete_task l id).2) ∧
    (∀ l id, Inv l → Inv (remove_task l id).2) ∧
    (∀ file L, load_tasks file = .ok L → ∀ t ∈ L.tasks, t.id < L.next_id) := by
  refine ⟨⟨by simp [TodoList.new], by simp [TodoList.new], by simp [TodoList.new]⟩,
    ?_, ?_, ?_, ?_⟩
  · intro l d hInv
    obtain ⟨hnd, hlt, hdesc⟩ := hInv
    by_cases he : trim d = []
    · simp only [add_task, he, if_pos rfl]
      exact ⟨hnd, hlt, hdesc⟩
    · simp only [add_task, if_neg he]
      refine ⟨?_, ?_, ?_⟩
      · rw [List.map_append]
        apply List.Nodup.append hnd (by simp)
        intro a ha hb
        simp only [List.map_cons, List.map_nil, List.mem_singleton] at hb
        subst hb
        obtain ⟨t, htm, hta⟩ := List.mem_map.mp ha
        exact absurd (hta ▸ hlt t htm) (Nat.lt_irrefl _)
      · intro t ht
        rcases List.mem_append.mp ht with h1 | h2
        · exact Nat.lt_succ_of_lt (hlt t h1)
        · simp only [List.mem_singleton] at h2
          subst h2
          exact Nat.lt_succ_self _
      · intro t ht
        rcases List.mem_append.mp ht with h1 | h2
        · exact hdesc t h1
        · simp only [List.mem_singleton] at h2
          subst h2
          simpa [trim_trim] using he
  · intro l id hInv
    obtain ⟨hnd, hlt, hdesc⟩ := hInv
    rw [complete_task]
    match hc : completeAux l.tasks id with
    | none => exact ⟨hnd, hlt, hdesc⟩
    | some ts' =>
      refine ⟨?_, ?_, ?_⟩
      · dsimp only
        rw [completeAux_ids l.tasks ts' id hc]
        exact hnd
      · intro t ht
        dsimp only at ht ⊢
        have : t.id ∈ ts'.map (·.id) := List.mem_map.mpr ⟨t, ht, rfl⟩
        rw [completeAux_ids l.tasks ts' id hc] at this
        obtain ⟨u, hu, he⟩ := List.mem_map.mp this
        exact he ▸ hlt u hu
      · intro t ht
        dsimp only at ht
        obtain ⟨u, hu, he⟩ := completeAux_desc l.tasks ts' id hc t ht
        rw [he]
        exact hdesc u hu
  · intro l id hInv
    obtain ⟨hnd, hlt, hdesc⟩ := hInv
    rw [remove_task]
    match hc : removeAux l.tasks id with
    | none => exact ⟨hnd, hlt, hdesc⟩
    | some ts' =>
      obtain ⟨k, hk, hkid, hrest⟩ := removeAux_eq_some l.tasks id ts' hc
      subst hrest
      have hsub : List.Sublist (l.tasks.eraseIdx k) l.tasks := List.eraseIdx_sublist l.tasks k
      refine ⟨?_, ?_, ?_⟩
      · exact List.Nodup.sublist (hsub.map (·.id)) hnd
      · intro t ht
        exact hlt t (hsub.subset ht)
      · intro t ht
        exact hdesc t (hsub.subset ht)
  · intro file L hL t ht
    match file with
    | none =>
      simp only [load_tasks, Except.ok.injEq] at hL
      subst hL
      simp [TodoList.new] at ht
    | some lines =>
      obtain ⟨_, rfl⟩ := (load_tasks_ok_iff lines L).mp hL
      dsimp only at ht ⊢
      have hmem : t.id ∈ (lines.filterMap lineTask).map (·.id) :=
        List.mem_map.mpr ⟨t, ht, rfl⟩
      match hmax : ((lines.filterMap lineTask).map (·.id)).max? with
      | none =>
        rw [List.max?_eq_none_iff.mp hmax] at hmem
        simp at hmem
      | some m =>
        have hle := (List.max?_eq_some_iff'.mp hmax).2 t.id hmem
        simp only [hmax]
        omega

theorem operations_preserve_invariants_witness :
    Inv (add_task TodoList.new "Buy milk".data).2 :=
  operations_preserve_invariants.2.1 TodoList.new "Buy milk".data
    operations_preserve_invariants.1

/-- C3 fails as stated: the on-disk line `1,pending,a\, b` splits into exactly
three fields once escaped commas are accounted for (as the claim requires),
yet the load loop splits it on every raw comma into four parts and skips it —
the line is not loaded as a task. -/
theorem escaped_line_not_loaded :
    splitCommaEsc escLine = ["1".data, "pending".data, "a\\, b".data] ∧
    unescape "a\\, b".data = "a, b".data ∧
    load_tasks (some [escLine]) = .ok { tasks := [], next_id := 1 } :=
  ⟨rfl, rfl, rfl⟩

/-- C3 (amended).  The load loop splits every line on raw commas, giving
escaped commas no special treatment.  A line that does not split into exactly
three raw fields is silently skipped: inserting it anywhere in a file that
loads successfully leaves the loaded store unchanged (no abort).  A line that
does split into three raw fields and carries a parseable id is loaded as its
task (`lineTask`); with an unparseable id it instead aborts the whole load. -/
theorem malformed_raw_lines_skipped :
    (∀ line, (∀ f0 f1 f2, splitComma line ≠ [f0, f1, f2]) →
      ∀ pre post L, load_tasks (some (pre ++ post)) = .ok L →
        load_tasks (some (pre ++ line :: post)) = .ok L) ∧
    (∀ lines L, load_tasks (some lines) = .ok L →
      ∀ line ∈ lines, ∀ t, lineTask line = some t → t ∈ L.tasks) := by
  constructor
  · intro line hmal pre post L hL
    obtain ⟨hfb, rfl⟩ := (load_tasks_ok_iff (pre ++ post) L).mp hL
    have hbadline : isBadLine line = false := by
      rw [isBadLine]
      match hs : splitComma line with
      | [f0, f1, f2] => exact absurd hs (hmal f0 f1 f2)
      | [] => rfl
      | [f0] => rfl
      | [f0, f1] => rfl
      | f0 :: f1 :: f2 :: f3 :: fs => rfl
    have hlt : lineTask line = none := by
      rw [lineTask]
      match hs : splitComma line with
      | [f0, f1, f2] => exact absurd hs (hmal f0 f1 f2)
      | [] => rfl
      | [f0] => rfl
      | [f0, f1] => rfl
      | f0 :: f1 :: f2 :: f3 :: fs => rfl
    have hall := (firstBad_eq_none_iff _).mp hfb
    have hfb2 : firstBad (pre ++ line :: post) = none := by
      apply (firstBad_eq_none_iff _).mpr
      intro x hx
      rcases List.mem_append.mp hx with h1 | h2
      · exact hall x (List.mem_append.mpr (Or.inl h1))
      · rcases List.mem_cons.mp h2 with he | h3
        · rw [he]; exact hbadline
        · exact hall x (List.mem_append.mpr (Or.inr h3))
    apply (load_tasks_ok_iff _ _).mpr
    refine ⟨hfb2, ?_⟩
    have hfm : (pre ++ line :: post).filterMap lineTask =
        (pre ++ post).filterMap lineTask := by
      simp [List.filterMap_append, List.filterMap_cons, hlt]
    rw [hfm]
  · intro lines L hL line hline t hlt
    obtain ⟨_, rfl⟩ := (load_tasks_ok_iff lines L).mp hL
    exact List.mem_filterMap.mpr ⟨line, hline, hlt⟩

theorem malformed_raw_lines_skipped_witness :
    load_tasks (some ["garbage".data, "1,pending,a".data]) =
      .ok { tasks := [{ id := 1, description := "a".data, completed := false }],
            next_id := 2 } :=
  malformed_raw_lines_skipped.1 "garbage".data
    (by intro f0 f1 f2 h; simp [splitComma, consHead] at h)
    [] ["1,pending,a".data] _ rfl

/-- C4.  On a line with exactly three raw comma-split fields whose first field
is not a parseable unsigned integer, the load aborts with the `ParseError`
message carrying that line's 1-based number (the first such line reached);
when no line aborts, the load succeeds and the store holds, in file order, one
task per three-field line — with the task of a parseable line having the parsed
id, the unescaped description, and `completed` true exactly when the status
field equals `"completed"`. -/
theorem load_parse_failure_policy (lines : List Str) :
    (∀ k, firstBad lines = some k →
      (∃ hk : k < lines.length, isBadLine (lines.get ⟨k, hk⟩) = true ∧
        ∀ j, j < k → ∀ hj : j < lines.length, isBadLine (lines.get ⟨j, hj⟩) = false) ∧
      load_tasks (some lines) = .error (errInvalidId (k + 1))) ∧
    (firstBad lines = none →
      ∃ L, load_tasks (some lines) = .ok L ∧ L.tasks = lines.filterMap lineTask) ∧
    (∀ L, load_tasks (some lines) = .ok L →
      ∀ k, ∀ hk : k < lines.length, ∀ f0 f1 f2 id,
        splitComma (lines.get ⟨k, hk⟩) = [f0, f1, f2] → parseNat f0 = some id →
        ({ id := id, description := unescape f2, completed := f1 == strCompleted } : Task)
          ∈ L.tasks) := by
  refine ⟨?_, ?_, ?_⟩
  · intro k hk
    refine ⟨firstBad_eq_some lines k hk, ?_⟩
    rw [load_tasks, loadLines_eq_error lines 0 k hk, Nat.zero_add]
  · intro hnone
    exact ⟨_, (load_tasks_ok_iff lines _).mpr ⟨hnone, rfl⟩, rfl⟩
  · intro L hL k hk f0 f1 f2 id hs hp
    obtain ⟨_, rfl⟩ := (load_tasks_ok_iff lines L).mp hL
    apply List.mem_filterMap.mpr
    refine ⟨lines.get ⟨k, hk⟩, List.get_mem lines k hk, ?_⟩
    rw [lineTask, hs]
    dsimp only
    rw [hp]
    rfl

theorem load_parse_failure_policy_witness :
    load_tasks (some ["abc,pending,x".data]) = .error (errInvalidId 1) :=
  ((load_parse_failure_policy ["abc,pending,x".data]).1 0 rfl).2

/-- C9.  Loading a nonexistent file yields the empty store with `next_id = 1`
(not an error), and every successful load sets `next_id` to one more than the
maximum loaded id, or to 1 when no task was loaded. -/
theorem load_sets_next_id :
    load_tasks none = .ok { tasks := [], next_id := 1 } ∧
    (∀ file L, load_tasks file = .ok L →
      (L.tasks = [] → L.next_id = 1) ∧
      (L.tasks ≠ [] →
        ∃ m, m ∈ L.tasks.map (·.id) ∧ (∀ i ∈ L.tasks.map (·.id), i ≤ m) ∧
          L.next_id = m + 1)) := by
  refine ⟨rfl, ?_⟩
  intro file L hL
  match file with
  | none =>
    simp only [load_tasks, Except.ok.injEq] at hL
    subst hL
    exact ⟨fun _ => rfl, fun hne => absurd rfl hne⟩
  | some lines =>
    obtain ⟨_, rfl⟩ := (load_tasks_ok_iff lines L).mp hL
    constructor
    · intro hts
      dsimp only at hts ⊢
      rw [hts]
      rfl
    · intro hne
      dsimp only at hne ⊢
      have hmapne : (lines.filterMap lineTask).map (·.id) ≠ [] := by
        simpa using hne
      match hmax : ((lines.filterMap lineTask).map (·.id)).max? with
      | none => exact absurd (List.max?_eq_none_iff.mp hmax) hmapne
      | some m =>
        obtain ⟨hmem, hbound⟩ := List.max?_eq_some_iff'.mp hmax
        refine ⟨m, hmem, hbound, ?_⟩
        simp only [hmax]

theorem load_sets_next_id_witness :
    ({ tasks := [], next_id := 1 } : TodoList).next_id = 1 :=
  (load_sets_next_id.2 none { tasks := [], next_id := 1 } rfl).1 rfl

end Todo
